import Mathlib

/-!
Verification of the changelog core of a documentation generator for
git-hosted protobuf modules.  The development shallowly embeds:

* the scoped commit iterator (`internal/pathwalker.go`) over a linear,
  newest-first commit history, with trees modelled as finite path → blob
  maps and a tree diff as the set of paths whose blobs differ;
* the changelog accumulator and service `getChangelog`;
* the tag-collection loop of `newModule`.

Commits are identified by a numeric hash; the repository log keyed at a
commit is modelled as the suffix of a linear history starting at that
commit.  Accumulator windows hold pointers to per-call version clones in
the Go code; here they are modelled as indices into the cloned version
list, with the per-version logs kept in an index-addressed table.
-/

/-- A commit: content hash plus its tree snapshot, the tree being a flat
list of (path, blob id) entries. -/
structure Commit where
  hash : Nat
  tree : List (String × Nat)
deriving DecidableEq, Repr

/-- A semantic version; only the pre-release label matters to the
changelog core, the numeric triple is carried for realism. -/
structure SemVer where
  major : Nat
  minor : Nat
  patch : Nat
  prerelease : String
deriving DecidableEq, Repr

/-- A tracked tag (`ModuleVersion`) bound to its commit, with the
changelog list `log` accumulated by `getChangelog`. -/
structure ModuleVersion where
  tag : String
  commit : Commit
  version : SemVer
  log : List Commit
deriving DecidableEq, Repr

/-- A module (the source's `Module`, renamed because `Module` is taken
by Mathlib): its tracked versions and the repository's linear commit
history, newest (commit-time descending) first. -/
structure RepoModule where
  versions : List ModuleVersion
  history : List Commit
deriving DecidableEq, Repr

/-- The `strings.HasPrefix` test, in a form the kernel can evaluate (character
list prefix test). -/
def strStartsWith (p s : String) : Bool :=
  p.toList.isPrefixOf s.toList

/-- Look a path up in a tree. -/
def treeLookup (t : List (String × Nat)) (p : String) : Option Nat :=
  (t.find? (fun e => e.1 == p)).map (fun e => e.2)

/-- The set of path names changed between two trees: paths present in
either tree whose blobs differ (models `object.DiffTree` plus the name
extraction of `commitPathIter.hasFileChange`). -/
def changedNames (a b : List (String × Nat)) : List String :=
  ((a.map (fun e => e.1)) ++ (b.map (fun e => e.1))).dedup.filter
    (fun p => treeLookup a p != treeLookup b p)

/-- Changed names of a commit diffed against its parent candidate; when
the candidate is absent the diff is taken against the empty tree
(`getNextFileCommit` keeps `parentTree` nil past the initial commit). -/
def diffNames (cur : Commit) (par : Option Commit) : List String :=
  changedNames cur.tree (match par with | some p => p.tree | none => [])

/-- One full drain of `commitPathIter.getNextFileCommit` starting from
cursor `cur` with remaining source `rest`.  Returns the pair
(yielded commits with the changed names handed to the filter,
 commits on which the filter was evaluated, with those names). -/
def commitPathRun (pathFilter : Commit → List String → Bool) :
    Commit → List Commit → List (Commit × List String) × List (Commit × List String)
  | cur, [] =>
    let names := diffNames cur none
    (if pathFilter cur names then [(cur, names)] else [], [(cur, names)])
  | cur, p :: rest =>
    let names := diffNames cur (some p)
    let r := commitPathRun pathFilter p rest
    (if pathFilter cur names then (cur, names) :: r.1 else r.1,
     (cur, names) :: r.2)

/-- All commits yielded by the scoped commit iterator over source `src`
(paired with the changed names seen by the filter), i.e. the sequence a
full `ForEach` observes. -/
def commitPathIter (pathFilter : Commit → List String → Bool) :
    List Commit → List (Commit × List String)
  | [] => []
  | c :: rest => (commitPathRun pathFilter c rest).1

/-- The sequence of (commit, changed names) pairs on which the
iterator's filter is evaluated over a full drain. -/
def commitPathIterEvals (pathFilter : Commit → List String → Bool) :
    List Commit → List (Commit × List String)
  | [] => []
  | c :: rest => (commitPathRun pathFilter c rest).2

/-- Each commit of a history paired with its successor (the next, older
commit), the last one paired with `none`. -/
def succPairs : List Commit → List (Commit × Option Commit)
  | [] => []
  | [c] => [(c, none)]
  | c :: d :: rest => (c, some d) :: succPairs (d :: rest)

/-- A successor pair annotated with the changed names of its diff. -/
def annotPair (x : Commit × Option Commit) : Commit × List String :=
  (x.1, diffNames x.1 x.2)

/-- Specification-side description of the scoped commit iterator: the
order-preserving subsequence of the history consisting of the commits on
which the filter holds against the diff versus the successor. -/
def specScopedSubseq (pathFilter : Commit → List String → Bool)
    (src : List Commit) : List Commit :=
  ((succPairs src).filter (fun x => pathFilter x.1 (diffNames x.1 x.2))).map
    (fun x => x.1)

/-- Concrete data used by witnesses and counterexamples. -/
def svStable : SemVer :=
  { major := 1, minor := 1, patch := 0, prerelease := "" }

def svRC : SemVer :=
  { major := 1, minor := 0, patch := 1, prerelease := "rc1" }

def cexC1 : Commit := { hash := 1, tree := [("api/a", 1)] }

def cexC2 : Commit := { hash := 2, tree := [("api/a", 2)] }

def cexC3 : Commit := { hash := 3, tree := [("api/a", 3)] }

/-- Stable v1.1.0 tagged at the newest commit. -/
def mvStable110 : ModuleVersion :=
  { tag := "v1.1.0", commit := cexC3, version := svStable, log := [] }

/-- Pre-release v1.0.1-rc1 tagged at the middle commit. -/
def mvRC101 : ModuleVersion :=
  { tag := "v1.0.1-rc1", commit := cexC2, version := svRC, log := [] }

/-- Stable v1.0.0 tagged at the oldest commit. -/
def mvOnly100 : ModuleVersion :=
  { tag := "v1.0.0", commit := cexC1,
    version := { major := 1, minor := 0, patch := 0, prerelease := "" },
    log := [] }

/-- Three-commit module: stable tag, then a pre-release tag, then an
untagged subtree-relevant commit. -/
def mStablePre : RepoModule :=
  { versions := [mvStable110, mvRC101], history := [cexC3, cexC2, cexC1] }

/-- Module whose newest commit carries no tag: the log is keyed at the
highest tagged commit, not at the history's head. -/
def mUntaggedTip : RepoModule :=
  { versions := [mvOnly100], history := [cexC2, cexC1] }

def fC1 : Commit := { hash := 11, tree := [("api/a", 1)] }

def fC2 : Commit := { hash := 12, tree := [("api/a", 2)] }

/-- Highest version tagged on the older commit. -/
def mvV200 : ModuleVersion :=
  { tag := "v2.0.0", commit := fC1,
    version := { major := 2, minor := 0, patch := 0, prerelease := "" },
    log := [] }

/-- Lower version tagged on the newer commit, unreachable from the log
keyed at v2.0.0's commit. -/
def mvV190 : ModuleVersion :=
  { tag := "v1.9.0", commit := fC2,
    version := { major := 1, minor := 9, patch := 0, prerelease := "" },
    log := [] }

def mNeverReached : RepoModule :=
  { versions := [mvV200, mvV190], history := [fC2, fC1] }

theorem succPairs_cons_cons (c d : Commit) (rest : List Commit) :
    succPairs (c :: d :: rest) = (c, some d) :: succPairs (d :: rest) := rfl

theorem succPairs_map_fst (src : List Commit) :
    (succPairs src).map (fun x => x.1) = src := by
  induction src with
  | nil => rfl
  | cons c rest ih =>
    cases rest with
    | nil => rfl
    | cons d rs =>
      simp only [succPairs_cons_cons, List.map_cons] at ih ⊢
      simpa using ih

theorem commitPathRun_snd (pathFilter : Commit → List String → Bool)
    (rest : List Commit) : ∀ cur,
    (commitPathRun pathFilter cur rest).2 =
      (succPairs (cur :: rest)).map annotPair := by
  induction rest with
  | nil => intro cur; simp [commitPathRun, succPairs, annotPair]
  | cons p rs ih =>
    intro cur
    simp only [commitPathRun, succPairs_cons_cons, List.map_cons]
    rw [ih p]
    rfl

theorem commitPathRun_fst (pathFilter : Commit → List String → Bool)
    (rest : List Commit) : ∀ cur,
    (commitPathRun pathFilter cur rest).1 =
      ((succPairs (cur :: rest)).map annotPair).filter
        (fun y => pathFilter y.1 y.2) := by
  induction rest with
  | nil =>
    intro cur
    simp only [commitPathRun, succPairs, List.map_cons, List.map_nil]
    by_cases h : pathFilter cur (diffNames cur none) <;>
      simp [h, annotPair, List.filter]
  | cons p rs ih =>
    intro cur
    simp only [commitPathRun, succPairs_cons_cons, List.map_cons]
    rw [List.filter_cons]
    by_cases h : pathFilter cur (diffNames cur (some p)) <;>
      simp [h, annotPair, ih p]

theorem commitPathIter_map_fst
    (pathFilter : Commit → List String → Bool) (src : List Commit) :
    (commitPathIter pathFilter src).map (fun y => y.1) =
      specScopedSubseq pathFilter src := by
  cases src with
  | nil => rfl
  | cons c rest =>
    show ((commitPathRun pathFilter c rest).1).map _ = _
    rw [commitPathRun_fst, List.filter_map, List.map_map, specScopedSubseq]
    rfl

theorem commitPathIterEvals_map_fst
    (pathFilter : Commit → List String → Bool) (src : List Commit) :
    (commitPathIterEvals pathFilter src).map (fun y => y.1) = src := by
  cases src with
  | nil => rfl
  | cons c rest =>
    show ((commitPathRun pathFilter c rest).2).map _ = _
    rw [commitPathRun_snd, List.map_map]
    exact succPairs_map_fst (c :: rest)

/-- C1: over any ordered source history and path filter, the scoped
commit iterator yields exactly the order-preserving subsequence of the
history on which the filter holds against each commit's diff versus its
successor (versus the empty tree for the last commit), and the filter is
evaluated exactly once per commit of the history. -/
theorem commitPathIter_yields_spec_subseq
    (pathFilter : Commit → List String → Bool) (src : List Commit) :
    (commitPathIter pathFilter src).map (fun y => y.1) =
        specScopedSubseq pathFilter src ∧
    (commitPathIterEvals pathFilter src).map (fun y => y.1) = src :=
  ⟨commitPathIter_map_fst pathFilter src,
    commitPathIterEvals_map_fst pathFilter src⟩

/-- The function `VersionsAtCommit`: the tracked versions whose tag commit hash
equals `id`, in tracking order. -/
def VersionsAtCommit (id : Nat) (versions : List ModuleVersion) :
    List ModuleVersion :=
  versions.filter (fun v => v.commit.hash == id)

/-- Whether the version carries a non-empty pre-release label (`isPrerelease`). -/
def isPrerelease (v : ModuleVersion) : Bool :=
  v.version.prerelease != ""

/-- Placeholder version used for out-of-range index lookups. -/
def mvDummy : ModuleVersion :=
  { tag := ""
    commit := { hash := 0, tree := [] }
    version := { major := 0, minor := 0, patch := 0, prerelease := "" }
    log := [] }

/-- Indices of the tracked versions whose tag commit hash equals `id`
(the pointer identities `VersionsAtCommit` returns, as positions in the
per-call version list). -/
def versionIdxAt : List ModuleVersion → Nat → List Nat
  | [], _ => []
  | v :: rest, id =>
    if v.commit.hash == id then
      0 :: (versionIdxAt rest id).map (fun j => j + 1)
    else (versionIdxAt rest id).map (fun j => j + 1)

/-- The deletion condition of the accumulator's `slices.DeleteFunc`:
window `e` is closed when some freshly found version is stable or `e`
itself is a pre-release. -/
def closeCond (versions : List ModuleVersion) (found : List Nat)
    (e : Nat) : Bool :=
  found.any (fun f =>
    !isPrerelease (versions.getD f mvDummy) ||
      isPrerelease (versions.getD e mvDummy))

/-- The append loop `for _, acc := range accumulators { acc.Log =
append(acc.Log, commit) }`, over an index-addressed log table. -/
def appendToAccs (c : Commit) : List Nat → (Nat → List Commit) →
    Nat → List Commit
  | [], logs => logs
  | a :: rest, logs =>
    appendToAccs c rest (fun j => if j = a then logs j ++ [c] else logs j)

/-- Whether some changed name lies under the API subtree; this is the
`ok` loop of `getChangelog`'s predicate and the condition under which a
commit hash is recorded in the `inScope` set. -/
def inScopeNames (api : String) (names : List String) : Bool :=
  names.any (fun n => strStartsWith (api ++ "/") n)

/-- Accumulator-pass state: the open windows (as indices into the
per-call version list, in insertion order) and the per-version logs. -/
structure ChState where
  accs : List Nat
  logs : Nat → List Commit

/-- One iteration of the accumulator callback of `getChangelog`: close
windows per `closeCond`, open a window for every found version, then
append the commit to every open window when it is subtree-relevant. -/
def chStep (versions : List ModuleVersion) (api : String) (st : ChState)
    (y : Commit × List String) : ChState :=
  let found := versionIdxAt versions y.1.hash
  let accs1 := st.accs.filter (fun e => !closeCond versions found e)
  let accs2 := accs1 ++ found
  { accs := accs2
    logs :=
      if inScopeNames api y.2 then appendToAccs y.1 accs2 st.logs
      else st.logs }

/-- The whole accumulator pass (the `filtered.ForEach` loop). -/
def runPass (versions : List ModuleVersion) (api : String)
    (st : ChState) : List (Commit × List String) → ChState
  | [] => st
  | y :: ys => runPass versions api (chStep versions api st y) ys

/-- The state the pass starts from: no open windows, all logs empty. -/
def chInitState : ChState :=
  { accs := [], logs := fun _ => [] }

/-- Whether a tree contains the API subtree, i.e. `tree.Tree(api)` does
not fail with `ErrDirectoryNotFound`: some entry lies under `api/`. -/
def hasAPISubtree (api : String) (t : List (String × Nat)) : Bool :=
  t.any (fun e => strStartsWith (api ++ "/") e.1)

/-- The semi-deep clone loop of `getChangelog`: keep the versions whose
tagged tree has the API subtree, resetting each clone's log. -/
def chVersions (module : RepoModule) (api : String) : List ModuleVersion :=
  (module.versions.filter (fun m => hasAPISubtree api m.commit.tree)).map
    (fun m => { m with log := [] })

/-- The log `Repo.Log(From: fromHash, Order: CommitterTime)` over a linear
history: the suffix of the history starting at the commit with that
hash. -/
def repoLog (fromHash : Nat) (history : List Commit) : List Commit :=
  history.dropWhile (fun c => c.hash != fromHash)

/-- The source sequence `getChangelog` feeds to the scoped commit
iterator: the log keyed at the first filtered version's tag commit. -/
def chHistory (module : RepoModule) (api : String) : List Commit :=
  match chVersions module api with
  | [] => []
  | v :: _ => repoLog v.commit.hash module.history

/-- The iterator predicate built by `getChangelog`: some changed path
has the API prefix, or the commit carries a tracked tag. -/
def chPredicate (versions : List ModuleVersion) (api : String)
    (c : Commit) (names : List String) : Bool :=
  inScopeNames api names ||
    decide (0 < (VersionsAtCommit c.hash versions).length)

/-- The filtered commit sequence the accumulator consumes, each commit
paired with the changed names its predicate evaluation saw (the Go code
records the subtree-relevance of those names in the `inScope` set). -/
def chYields (module : RepoModule) (api : String) :
    List (Commit × List String) :=
  commitPathIter (chPredicate (chVersions module api) api)
    (chHistory module api)

/-- The accumulator state after the full pass of `getChangelog`. -/
def chFinal (module : RepoModule) (api : String) : ChState :=
  runPass (chVersions module api) api chInitState (chYields module api)

/-- The service `getChangelog`: returns the per-call version clones with their
accumulated logs (empty when there are no versions, or none of them
exposes the API subtree). -/
def getChangelog (module : RepoModule) (api : String) :
    List ModuleVersion :=
  match module.versions with
  | [] => []
  | _ :: _ =>
    match chVersions module api with
    | [] => []
    | _ :: _ =>
      (List.range (chVersions module api).length).map (fun i =>
        { (chVersions module api).getD i mvDummy with
            log := (chFinal module api).logs i })

/-- The tag-collection loop of `newModule`: a tag is tracked only when
its short name has the "v" prefix and then parses as a semantic version
(parsing is the external `semver.NewVersion`, abstracted as `parse`). -/
def newModuleVersions (parse : String → Option SemVer) :
    List (String × Commit) → List ModuleVersion
  | [] => []
  | (name, commit) :: rest =>
    if strStartsWith "v" name then
      match parse name with
      | some version =>
        { tag := name, commit := commit, version := version, log := [] } ::
          newModuleVersions parse rest
      | none => newModuleVersions parse rest
    else newModuleVersions parse rest

/-- The `VersionLookup` entries collected by the same loop. -/
def newModuleVersionLookup (parse : String → Option SemVer) :
    List (String × Commit) → List (String × ModuleVersion)
  | [] => []
  | (name, commit) :: rest =>
    if strStartsWith "v" name then
      match parse name with
      | some version =>
        (name,
          { tag := name, commit := commit, version := version, log := [] }) ::
          newModuleVersionLookup parse rest
      | none => newModuleVersionLookup parse rest
    else newModuleVersionLookup parse rest

theorem versionIdxAt_mem (versions : List ModuleVersion) (id : Nat) :
    ∀ i, i ∈ versionIdxAt versions id ↔
      i < versions.length ∧
        (versions.getD i mvDummy).commit.hash = id := by
  induction versions with
  | nil => intro i; simp [versionIdxAt]
  | cons v rest ih =>
    intro i
    by_cases h : v.commit.hash = id
    · simp only [versionIdxAt, beq_iff_eq, h, if_true, List.mem_cons,
        List.mem_map]
      constructor
      · rintro (rfl | ⟨j, hj, rfl⟩)
        · exact ⟨Nat.succ_pos _, by simpa using h⟩
        · rcases (ih j).mp hj with ⟨hlt, hg⟩
          refine ⟨by simp only [List.length_cons]; omega,
            by simpa [List.getD_cons_succ] using hg⟩
      · rintro ⟨hlt, hg⟩
        simp only [List.length_cons] at hlt
        cases i with
        | zero => exact Or.inl rfl
        | succ j =>
          refine Or.inr ⟨j, (ih j).mpr ⟨by omega, ?_⟩, rfl⟩
          simpa [List.getD_cons_succ] using hg
    · simp only [versionIdxAt, beq_iff_eq, h, if_false, List.mem_map]
      constructor
      · rintro ⟨j, hj, rfl⟩
        rcases (ih j).mp hj with ⟨hlt, hg⟩
        refine ⟨by simp only [List.length_cons]; omega,
          by simpa [List.getD_cons_succ] using hg⟩
      · rintro ⟨hlt, hg⟩
        simp only [List.length_cons] at hlt
        cases i with
        | zero => simp [List.getD_cons_zero] at hg; exact absurd hg h
        | succ j =>
          refine ⟨j, (ih j).mpr ⟨by omega, ?_⟩, rfl⟩
          simpa [List.getD_cons_succ] using hg

theorem versionIdxAt_nodup (versions : List ModuleVersion) (id : Nat) :
    (versionIdxAt versions id).Nodup := by
  induction versions with
  | nil => simp [versionIdxAt]
  | cons v rest ih =>
    have hmap : ((versionIdxAt rest id).map (fun j => j + 1)).Nodup :=
      ih.map (fun a b h => by omega)
    by_cases h : v.commit.hash = id
    · simp only [versionIdxAt, beq_iff_eq, h, if_true]
      refine List.nodup_cons.mpr ⟨?_, hmap⟩
      simp only [List.mem_map]
      rintro ⟨j, _, hj⟩
      omega
    · simpa only [versionIdxAt, beq_iff_eq, h, if_false] using hmap

theorem versionIdxAt_map_getD (versions : List ModuleVersion) (id : Nat) :
    (versionIdxAt versions id).map (fun i => versions.getD i mvDummy) =
      VersionsAtCommit id versions := by
  induction versions with
  | nil => rfl
  | cons v rest ih =>
    have hmm : ((versionIdxAt rest id).map (fun j => j + 1)).map
        (fun i => (v :: rest).getD i mvDummy) =
        (versionIdxAt rest id).map (fun i => rest.getD i mvDummy) := by
      rw [List.map_map]
      exact List.map_congr_left (fun j _ => by simp [List.getD_cons_succ])
    by_cases h : v.commit.hash = id
    · simp only [versionIdxAt, beq_iff_eq, h, if_true, List.map_cons,
        List.getD_cons_zero, VersionsAtCommit, List.filter_cons]
      rw [hmm, ih]
      simp [VersionsAtCommit, h]
    · simp only [versionIdxAt, beq_iff_eq, h, if_false, VersionsAtCommit,
        List.filter_cons]
      rw [hmm, ih]
      simp [VersionsAtCommit, h]

theorem versionIdxAt_nil_iff (versions : List ModuleVersion) (id : Nat) :
    versionIdxAt versions id = [] ↔ VersionsAtCommit id versions = [] := by
  rw [← versionIdxAt_map_getD]
  exact (List.map_eq_nil_iff).symm

theorem appendToAccs_eq (c : Commit) :
    ∀ (accs : List Nat) (logs : Nat → List Commit) (j : Nat),
      appendToAccs c accs logs j =
        logs j ++ List.replicate (accs.count j) c := by
  intro accs
  induction accs with
  | nil => intro logs j; simp [appendToAccs]
  | cons a rest ih =>
    intro logs j
    rw [appendToAccs, ih]
    by_cases h : j = a
    · subst h
      simp [List.count_cons, List.append_assoc, List.replicate_succ]
    · have : (a == j) = false := by simp [Ne.symm h]
      simp [if_neg h, List.count_cons, this]

theorem chStep_accs (versions : List ModuleVersion) (api : String)
    (st : ChState) (y : Commit × List String) :
    (chStep versions api st y).accs =
      st.accs.filter
        (fun e => !closeCond versions (versionIdxAt versions y.1.hash) e) ++
        versionIdxAt versions y.1.hash := rfl

theorem chStep_logs (versions : List ModuleVersion) (api : String)
    (st : ChState) (y : Commit × List String) (i : Nat) :
    (chStep versions api st y).logs i =
      st.logs i ++
        (if inScopeNames api y.2 then
          List.replicate ((chStep versions api st y).accs.count i) y.1
        else []) := by
  by_cases h : inScopeNames api y.2
  · simp only [chStep, h, if_true]
    exact appendToAccs_eq y.1 _ st.logs i
  · simp [chStep, h]

theorem closeCond_of_found (versions : List ModuleVersion)
    (found : List Nat) (f : Nat) (hf : f ∈ found) :
    closeCond versions found f = true := by
  refine List.any_eq_true.mpr ⟨f, hf, ?_⟩
  cases isPrerelease (versions.getD f mvDummy) <;> simp

theorem notMem_closeFilter_of_found (versions : List ModuleVersion)
    (found : List Nat) (accs : List Nat) (f : Nat) (hf : f ∈ found) :
    f ∉ accs.filter (fun e => !closeCond versions found e) := by
  intro hmem
  have := (List.mem_filter.mp hmem).2
  rw [closeCond_of_found versions found f hf] at this
  simp at this

theorem runPass_append (versions : List ModuleVersion) (api : String)
    (l1 l2 : List (Commit × List String)) : ∀ st,
    runPass versions api st (l1 ++ l2) =
      runPass versions api (runPass versions api st l1) l2 := by
  induction l1 with
  | nil => intro st; rfl
  | cons y ys ih => intro st; simp only [List.cons_append, runPass]; exact ih _

theorem runPass_notMem (versions : List ModuleVersion) (api : String) :
    ∀ (ys : List (Commit × List String)) (st : ChState) (i : Nat),
      i ∉ st.accs →
      (∀ y ∈ ys, i ∉ versionIdxAt versions y.1.hash) →
      (runPass versions api st ys).logs i = st.logs i ∧
        i ∉ (runPass versions api st ys).accs := by
  intro ys
  induction ys with
  | nil => intro st i hacc _; exact ⟨rfl, hacc⟩
  | cons y ys ih =>
    intro st i hacc hys
    have hfound : i ∉ versionIdxAt versions y.1.hash :=
      hys y (List.mem_cons_self y ys)
    have haccs2 : i ∉ (chStep versions api st y).accs := by
      rw [chStep_accs]
      intro hmem
      rcases List.mem_append.mp hmem with h | h
      · exact hacc (List.mem_filter.mp h).1
      · exact hfound h
    have hlogs : (chStep versions api st y).logs i = st.logs i := by
      rw [chStep_logs]
      have : (chStep versions api st y).accs.count i = 0 :=
        List.count_eq_zero.mpr haccs2
      rw [this]
      simp
    have := ih (chStep versions api st y) i haccs2
      (fun z hz => hys z (List.mem_cons_of_mem y hz))
    rw [runPass, this.1, hlogs]
    exact ⟨rfl, this.2⟩

theorem runPass_open (versions : List ModuleVersion) (api : String)
    (i : Nat) :
    ∀ (ys : List (Commit × List String)) (st : ChState),
      i ∈ st.accs → st.accs.count i = 1 →
      (∀ y ∈ ys, i ∉ versionIdxAt versions y.1.hash) →
      (runPass versions api st ys).logs i =
        st.logs i ++
          ((ys.takeWhile (fun y =>
              !closeCond versions (versionIdxAt versions y.1.hash) i)).filter
            (fun y => inScopeNames api y.2)).map (fun y => y.1) := by
  intro ys
  induction ys with
  | nil => intro st _ _ _; simp [runPass]
  | cons y ys ih =>
    intro st hmem hcount hys
    have hfound : i ∉ versionIdxAt versions y.1.hash :=
      hys y (List.mem_cons_self y ys)
    by_cases hc : closeCond versions (versionIdxAt versions y.1.hash) i
    · have haccs2 : i ∉ (chStep versions api st y).accs := by
        rw [chStep_accs]
        intro hm
        rcases List.mem_append.mp hm with h | h
        · have := (List.mem_filter.mp h).2
          rw [hc] at this
          simp at this
        · exact hfound h
      have hlogs : (chStep versions api st y).logs i = st.logs i := by
        rw [chStep_logs]
        rw [List.count_eq_zero.mpr haccs2]
        simp
      have hrest := runPass_notMem versions api ys
        (chStep versions api st y) i haccs2
        (fun z hz => hys z (List.mem_cons_of_mem y hz))
      rw [runPass, hrest.1, hlogs, List.takeWhile_cons]
      simp [hc]
    · have hb : (!closeCond versions (versionIdxAt versions y.1.hash) i)
          = true := by simp [hc]
      have hmem1 : i ∈ st.accs.filter (fun e =>
          !closeCond versions (versionIdxAt versions y.1.hash) e) :=
        List.mem_filter.mpr ⟨hmem, hb⟩
      have hcnt1 : (st.accs.filter (fun e =>
          !closeCond versions (versionIdxAt versions y.1.hash) e)).count i
          = 1 := by
        rw [List.count_filter
          (p := fun e =>
            !closeCond versions (versionIdxAt versions y.1.hash) e) hb]
        exact hcount
      have hmem2 : i ∈ (chStep versions api st y).accs := by
        rw [chStep_accs]
        exact List.mem_append.mpr (Or.inl hmem1)
      have hcnt2 : (chStep versions api st y).accs.count i = 1 := by
        rw [chStep_accs, List.count_append, hcnt1,
          List.count_eq_zero.mpr hfound]
      have hlogs : (chStep versions api st y).logs i =
          st.logs i ++ (if inScopeNames api y.2 then [y.1] else []) := by
        rw [chStep_logs, hcnt2]
        simp
      rw [runPass, ih (chStep versions api st y) hmem2 hcnt2
        (fun z hz => hys z (List.mem_cons_of_mem y hz)), hlogs,
        List.takeWhile_cons]
      simp only [hb, if_true, List.filter_cons]
      by_cases hs : inScopeNames api y.2 <;>
        simp [hs, List.append_assoc]

theorem dropWhile_head_false {α : Type} (p : α → Bool) :
    ∀ (l : List α) (y : α) (ys : List α),
      l.dropWhile p = y :: ys → p y = false := by
  intro l
  induction l with
  | nil => intro y ys h; simp [List.dropWhile] at h
  | cons a rest ih =>
    intro y ys h
    rw [List.dropWhile_cons] at h
    by_cases ha : p a
    · rw [if_pos ha] at h
      exact ih y ys h
    · rw [if_neg ha] at h
      cases h
      simpa using ha

/-- The exact window of one tracked version over the filtered sequence:
nothing when its tag commit is never yielded; otherwise the yields from
the tag commit up to (excluding) the first later yield whose found tags
close the window, restricted to the subtree-relevant ones. -/
theorem runPass_master (versions : List ModuleVersion) (api : String)
    (ys : List (Commit × List String)) (i : Nat)
    (hi : i < versions.length)
    (huniq : (ys.map (fun y => y.1.hash)).count
        ((versions.getD i mvDummy).commit.hash) ≤ 1) :
    (runPass versions api chInitState ys).logs i =
      match ys.dropWhile
          (fun y => y.1.hash != (versions.getD i mvDummy).commit.hash) with
      | [] => []
      | y0 :: rest =>
        ((y0 :: rest.takeWhile (fun y =>
            !closeCond versions (versionIdxAt versions y.1.hash) i)).filter
          (fun y => inScopeNames api y.2)).map (fun y => y.1) := by
  have hsplit : ys.takeWhile
        (fun y => y.1.hash != (versions.getD i mvDummy).commit.hash) ++
      ys.dropWhile
        (fun y => y.1.hash != (versions.getD i mvDummy).commit.hash) = ys :=
    List.takeWhile_append_dropWhile _ ys
  have hphase1 := runPass_notMem versions api
    (ys.takeWhile
      (fun y => y.1.hash != (versions.getD i mvDummy).commit.hash))
    chInitState i (by simp [chInitState])
    (by
      intro y hy hidx
      have hp := List.mem_takeWhile_imp hy
      have hne : y.1.hash ≠ (versions.getD i mvDummy).commit.hash :=
        bne_iff_ne.mp hp
      have := ((versionIdxAt_mem versions y.1.hash i).mp hidx).2
      exact hne this.symm)
  have hlhs : runPass versions api chInitState ys =
      runPass versions api
        (runPass versions api chInitState
          (ys.takeWhile
            (fun y => y.1.hash != (versions.getD i mvDummy).commit.hash)))
        (ys.dropWhile
          (fun y => y.1.hash != (versions.getD i mvDummy).commit.hash)) := by
    conv_lhs => rw [← hsplit]
    exact runPass_append versions api _ _ _
  cases hz : ys.dropWhile
      (fun y => y.1.hash != (versions.getD i mvDummy).commit.hash) with
  | nil =>
    rw [hlhs, hz, runPass]
    exact hphase1.1
  | cons y0 rest =>
    have hy0 : (fun y : Commit × List String =>
        y.1.hash != (versions.getD i mvDummy).commit.hash) y0 = false :=
      dropWhile_head_false _ ys y0 rest hz
    have hy0h : y0.1.hash = (versions.getD i mvDummy).commit.hash := by
      simpa using hy0
    have hifound : i ∈ versionIdxAt versions y0.1.hash :=
      (versionIdxAt_mem versions y0.1.hash i).mpr ⟨hi, hy0h.symm⟩
    have hcnt1 : (runPass versions api chInitState
        (ys.takeWhile (fun y =>
          y.1.hash != (versions.getD i mvDummy).commit.hash))).accs.count i
          = 0 :=
      List.count_eq_zero.mpr hphase1.2
    have hcnt2 : (chStep versions api
        (runPass versions api chInitState
          (ys.takeWhile (fun y =>
            y.1.hash != (versions.getD i mvDummy).commit.hash)))
        y0).accs.count i = 1 := by
      rw [chStep_accs, List.count_append,
        List.count_eq_one_of_mem (versionIdxAt_nodup versions y0.1.hash)
          hifound]
      have hle := (List.filter_sublist (p := fun e =>
          !closeCond versions (versionIdxAt versions y0.1.hash) e)
        (runPass versions api chInitState
          (ys.takeWhile (fun y =>
            y.1.hash != (versions.getD i mvDummy).commit.hash))).accs).count_le i
      omega
    have hmem2 : i ∈ (chStep versions api
        (runPass versions api chInitState
          (ys.takeWhile (fun y =>
            y.1.hash != (versions.getD i mvDummy).commit.hash)))
        y0).accs := by
      rw [chStep_accs]
      exact List.mem_append.mpr (Or.inr hifound)
    have hlog2 : (chStep versions api
        (runPass versions api chInitState
          (ys.takeWhile (fun y =>
            y.1.hash != (versions.getD i mvDummy).commit.hash)))
        y0).logs i = (if inScopeNames api y0.2 then [y0.1] else []) := by
      rw [chStep_logs, hcnt2, hphase1.1]
      by_cases hs : inScopeNames api y0.2 <;> simp [hs, chInitState]
    have hys2 : ys = ys.takeWhile
        (fun y => y.1.hash != (versions.getD i mvDummy).commit.hash) ++
        y0 :: rest := by
      rw [← hz]; exact hsplit.symm
    have hrest : ∀ y ∈ rest, i ∉ versionIdxAt versions y.1.hash := by
      rw [hys2] at huniq
      simp only [List.map_append, List.map_cons, List.count_append,
        List.count_cons, hy0h, beq_self_eq_true, if_true] at huniq
      have hzero : ((rest.map (fun y => y.1.hash)).count
          ((versions.getD i mvDummy).commit.hash)) = 0 := by omega
      intro y hy hidx
      have hne : y.1.hash ≠ (versions.getD i mvDummy).commit.hash := by
        intro he
        have : (versions.getD i mvDummy).commit.hash ∈
            rest.map (fun y => y.1.hash) :=
          List.mem_map.mpr ⟨y, hy, he⟩
        rw [← List.count_pos_iff] at this
        omega
      exact hne ((versionIdxAt_mem versions y.1.hash i).mp hidx).2.symm
    rw [hlhs, hz, runPass]
    rw [runPass_open versions api i rest _ hmem2 hcnt2 hrest, hlog2]
    by_cases hs : inScopeNames api y0.2 <;> simp [hs, List.filter_cons]

theorem getD_mem_of_lt {α : Type} (l : List α) (n : Nat) (d : α)
    (h : n < l.length) : l.getD n d ∈ l := by
  rw [List.getD_eq_getElem?_getD, List.getElem?_eq_getElem h]
  exact List.getElem_mem h

theorem specScopedSubseq_sublist
    (pathFilter : Commit → List String → Bool) (src : List Commit) :
    (specScopedSubseq pathFilter src).Sublist src := by
  rw [specScopedSubseq]
  have h1 := List.filter_sublist
    (p := fun x : Commit × Option Commit =>
      pathFilter x.1 (diffNames x.1 x.2)) (succPairs src)
  have h2 := h1.map (fun x : Commit × Option Commit => x.1)
  rw [succPairs_map_fst] at h2
  exact h2

theorem commitPathIter_mem_repr
    (pathFilter : Commit → List String → Bool) (src : List Commit)
    (y : Commit × List String) (hy : y ∈ commitPathIter pathFilter src) :
    ∃ x ∈ succPairs src, y = annotPair x := by
  cases src with
  | nil => simp [commitPathIter] at hy
  | cons c rest =>
    have : y ∈ ((succPairs (c :: rest)).map annotPair).filter
        (fun z => pathFilter z.1 z.2) := by
      rw [← commitPathRun_fst]
      exact hy
    have hmm := (List.mem_filter.mp this).1
    rcases List.mem_map.mp hmm with ⟨x, hx, hxy⟩
    exact ⟨x, hx, hxy.symm⟩

theorem chYields_fst_sublist (module : RepoModule) (api : String) :
    ((chYields module api).map (fun y => y.1)).Sublist
      (chHistory module api) := by
  rw [chYields, commitPathIter_map_fst]
  exact specScopedSubseq_sublist _ _

theorem chYields_hash_count_le (module : RepoModule) (api : String)
    (h : ((chHistory module api).map (fun c => c.hash)).Nodup) (vh : Nat) :
    ((chYields module api).map (fun y => y.1.hash)).count vh ≤ 1 := by
  have hsub := (chYields_fst_sublist module api).map (fun c => c.hash)
  rw [List.map_map] at hsub
  have hle := hsub.count_le vh
  have hcnt := (List.nodup_iff_count_le_one.mp h) vh
  calc ((chYields module api).map (fun y => y.1.hash)).count vh
      = (((chYields module api).map (fun y => (y.1).hash))).count vh := rfl
    _ ≤ ((chHistory module api).map (fun c => c.hash)).count vh := hle
    _ ≤ 1 := hcnt

theorem chVersions_hasAPI (module : RepoModule) (api : String)
    (m : ModuleVersion) (hm : m ∈ chVersions module api) :
    hasAPISubtree api m.commit.tree = true := by
  rcases List.mem_map.mp hm with ⟨orig, ho, rfl⟩
  exact (List.mem_filter.mp ho).2

theorem getChangelog_eq (module : RepoModule) (api : String) :
    getChangelog module api =
      (List.range (chVersions module api).length).map (fun i =>
        { (chVersions module api).getD i mvDummy with
            log := (chFinal module api).logs i }) := by
  cases hm : module.versions with
  | nil =>
    have hcv : chVersions module api = [] := by simp [chVersions, hm]
    simp [getChangelog, hm, hcv]
  | cons v vs =>
    cases hcv : chVersions module api with
    | nil => simp [getChangelog, hm, hcv]
    | cons w ws => simp [getChangelog, hm, hcv]

theorem getChangelog_length (module : RepoModule) (api : String) :
    (getChangelog module api).length = (chVersions module api).length := by
  rw [getChangelog_eq, List.length_map, List.length_range]

theorem getChangelog_getD (module : RepoModule) (api : String) (i : Nat)
    (hi : i < (chVersions module api).length) :
    (getChangelog module api).getD i mvDummy =
      { (chVersions module api).getD i mvDummy with
          log := (chFinal module api).logs i } := by
  rw [getChangelog_eq, List.getD_eq_getElem?_getD, List.getElem?_map,
    List.getElem?_range hi]
  rfl

/-- C2: at every visited commit the accumulator closes exactly the open
windows `e` with some found version stable or `e` itself a pre-release;
any stable found version closes every open window (even with co-located
pre-releases), and an empty `found` closes nothing. -/
theorem getChangelog_close_rule (versions : List ModuleVersion)
    (api : String) (st : ChState) (y : Commit × List String) :
    (chStep versions api st y).accs =
      st.accs.filter (fun e =>
        !closeCond versions (versionIdxAt versions y.1.hash) e) ++
      versionIdxAt versions y.1.hash ∧
    (∀ e, closeCond versions (versionIdxAt versions y.1.hash) e = true ↔
      ∃ f ∈ versionIdxAt versions y.1.hash,
        isPrerelease (versions.getD f mvDummy) = false ∨
          isPrerelease (versions.getD e mvDummy) = true) ∧
    ((∃ f ∈ versionIdxAt versions y.1.hash,
        isPrerelease (versions.getD f mvDummy) = false) →
      st.accs.filter (fun e =>
        !closeCond versions (versionIdxAt versions y.1.hash) e) = []) ∧
    (versionIdxAt versions y.1.hash = [] →
      (chStep versions api st y).accs = st.accs) := by
  refine ⟨chStep_accs versions api st y, ?_, ?_, ?_⟩
  · intro e
    simp only [closeCond, List.any_eq_true, Bool.or_eq_true,
      Bool.not_eq_true']
  · rintro ⟨f, hf, hst⟩
    refine List.filter_eq_nil_iff.mpr ?_
    intro e _
    have : closeCond versions (versionIdxAt versions y.1.hash) e = true :=
      List.any_eq_true.mpr
        ⟨f, hf, by simp only [hst, Bool.not_false, Bool.true_or]⟩
    simp [this]
  · intro hnil
    rw [chStep_accs, hnil]
    simp [closeCond]

/-- Witness for C2: with a stable version found at commit `cexC3`, the
previously open window list is emptied by the close step. -/
theorem getChangelog_close_rule_witness :
    (([1] : List Nat)).filter (fun e =>
      !closeCond [mvStable110, mvRC101]
        (versionIdxAt [mvStable110, mvRC101] cexC3.hash) e) = [] :=
  (getChangelog_close_rule [mvStable110, mvRC101] "api"
      { accs := [1], logs := fun _ => [] } (cexC3, [])).2.2.1
    ⟨0, by decide, by decide⟩

theorem newModuleVersions_cons_skip (parse : String → Option SemVer)
    (tags : List (String × Commit)) (name : String) (commit : Commit)
    (h : strStartsWith "v" name = false) :
    newModuleVersions parse ((name, commit) :: tags) =
      newModuleVersions parse tags := by
  simp [newModuleVersions, h]

theorem newModuleVersionLookup_cons_skip (parse : String → Option SemVer)
    (tags : List (String × Commit)) (name : String) (commit : Commit)
    (h : strStartsWith "v" name = false) :
    newModuleVersionLookup parse ((name, commit) :: tags) =
      newModuleVersionLookup parse tags := by
  simp [newModuleVersionLookup, h]

/-- C10: `newModule` tracks only tags whose short name starts with "v";
every tracked entry (in `Versions` and in `VersionLookup`) has the
prefix, and a tag without it contributes nothing — even when the
semantic-version parser would accept it. -/
theorem newModule_only_v_prefixed_tags (parse : String → Option SemVer)
    (tags : List (String × Commit)) :
    (∀ mv ∈ newModuleVersions parse tags,
      strStartsWith "v" mv.tag = true) ∧
    (∀ e ∈ newModuleVersionLookup parse tags,
      strStartsWith "v" e.1 = true) ∧
    (∀ name commit, strStartsWith "v" name = false →
      newModuleVersions parse ((name, commit) :: tags) =
        newModuleVersions parse tags ∧
      newModuleVersionLookup parse ((name, commit) :: tags) =
        newModuleVersionLookup parse tags) := by
  refine ⟨?_, ?_, fun name commit h =>
    ⟨newModuleVersions_cons_skip parse tags name commit h,
      newModuleVersionLookup_cons_skip parse tags name commit h⟩⟩
  · induction tags with
    | nil => intro mv h; simp [newModuleVersions] at h
    | cons t rest ih =>
      intro mv hmv
      rcases t with ⟨name, commit⟩
      by_cases hv : strStartsWith "v" name
      · rw [newModuleVersions] at hmv
        rw [if_pos hv] at hmv
        cases hp : parse name with
        | none => rw [hp] at hmv; exact ih mv hmv
        | some ver =>
          rw [hp] at hmv
          rcases List.mem_cons.mp hmv with rfl | hm
          · exact hv
          · exact ih mv hm
      · rw [newModuleVersions] at hmv
        rw [if_neg hv] at hmv
        exact ih mv hmv
  · induction tags with
    | nil => intro e h; simp [newModuleVersionLookup] at h
    | cons t rest ih =>
      intro e he
      rcases t with ⟨name, commit⟩
      by_cases hv : strStartsWith "v" name
      · rw [newModuleVersionLookup] at he
        rw [if_pos hv] at he
        cases hp : parse name with
        | none => rw [hp] at he; exact ih e he
        | some ver =>
          rw [hp] at he
          rcases List.mem_cons.mp he with rfl | hm
          · exact hv
          · exact ih e hm
      · rw [newModuleVersionLookup] at he
        rw [if_neg hv] at he
        exact ih e he

/-- Witness for C10: with a parser that accepts every string, "1.0.0"
still contributes nothing, while "v1.1.0" is tracked and carries the
prefix. -/
theorem newModule_only_v_prefixed_tags_witness :
    strStartsWith "v"
      (({ tag := "v1.1.0", commit := cexC3, version := svStable,
          log := [] } : ModuleVersion)).tag = true :=
  (newModule_only_v_prefixed_tags (fun _ => some svStable)
      [("1.0.0", cexC1), ("v1.1.0", cexC3)]).1 _ (by decide)

/-- Counterexample for C6: in `mUntaggedTip` an untagged commit sits
above the highest tagged commit, and the sequence fed to the iterator is
the log keyed at the tag commit — a strict suffix of the module's
history, not the complete history. -/
theorem getChangelog_full_history_cex :
    chVersions mUntaggedTip "api" ≠ [] ∧
    chHistory mUntaggedTip "api" ≠ mUntaggedTip.history ∧
    chHistory mUntaggedTip "api" = [cexC1] ∧
    mUntaggedTip.history = [cexC2, cexC1] ∧
    getChangelog mUntaggedTip "api" ≠ [] :=
  ⟨by decide, by decide, by decide, rfl, by decide⟩

/-- C6 (amended): the source sequence fed to the iterator is the portion
of the module's history starting at the first filtered version's tag
commit — a suffix of the full history, namely the log keyed at that
commit. -/
theorem getChangelog_history_from_first_version (module : RepoModule)
    (api : String) :
    List.IsSuffix (chHistory module api) module.history ∧
    ∀ v vs, chVersions module api = v :: vs →
      chHistory module api = repoLog v.commit.hash module.history := by
  constructor
  · cases hcv : chVersions module api with
    | nil =>
      have h : chHistory module api = [] := by
        simp only [chHistory, hcv]
      rw [h]
      exact List.nil_suffix
    | cons v vs =>
      have h : chHistory module api =
          repoLog v.commit.hash module.history := by
        simp only [chHistory, hcv]
      rw [h, repoLog]
      exact List.dropWhile_suffix _
  · intro v vs hcv
    simp only [chHistory, hcv]

/-- Witness for the amended C6 at the concrete module. -/
theorem getChangelog_history_from_first_version_witness :
    chHistory mUntaggedTip "api" =
      repoLog mvOnly100.commit.hash mUntaggedTip.history :=
  (getChangelog_history_from_first_version mUntaggedTip "api").2
    mvOnly100 [] (by decide)

theorem chVersions_log_irrelevant (l : List ModuleVersion) (api : String)
    (f : ModuleVersion → List Commit) :
    ((l.map (fun v => { v with log := f v })).filter
        (fun m => hasAPISubtree api m.commit.tree)).map
      (fun m => { m with log := [] }) =
    (l.filter (fun m => hasAPISubtree api m.commit.tree)).map
      (fun m => { m with log := [] }) := by
  induction l with
  | nil => rfl
  | cons v rest ih =>
    simp only [List.map_cons, List.filter_cons]
    by_cases h : hasAPISubtree api v.commit.tree
    · rw [show hasAPISubtree api
          (({ v with log := f v } : ModuleVersion)).commit.tree = true from h]
      simp [ih]
    · rw [show hasAPISubtree api
          (({ v with log := f v } : ModuleVersion)).commit.tree = false from
        by simpa using h]
      simp [ih]

/-- C7: the `ChangelogResult` does not depend on the contents of the
tracked versions' shared `Log` fields — the clone loop resets every log
before the pass, so whatever a previous run may have left in those
fields (in the code: nothing, since only per-call clones are appended
to) cannot perturb a later run; together with the engine being a pure
function of (versions, history), repeated runs over an unchanged module
produce an identical result. -/
theorem getChangelog_idempotent (module : RepoModule) (api : String)
    (f : ModuleVersion → List Commit) :
    getChangelog
        { versions := module.versions.map (fun v => { v with log := f v }),
          history := module.history } api =
      getChangelog module api := by
  have hcv : chVersions
      { versions := module.versions.map (fun v => { v with log := f v }),
        history := module.history } api = chVersions module api :=
    chVersions_log_irrelevant module.versions api f
  have hh : chHistory
      { versions := module.versions.map (fun v => { v with log := f v }),
        history := module.history } api = chHistory module api := by
    simp only [chHistory, hcv]
  have hy : chYields
      { versions := module.versions.map (fun v => { v with log := f v }),
        history := module.history } api = chYields module api := by
    simp only [chYields, hcv, hh]
  have hfin : chFinal
      { versions := module.versions.map (fun v => { v with log := f v }),
        history := module.history } api = chFinal module api := by
    simp only [chFinal, hcv, hy]
  rw [getChangelog_eq, getChangelog_eq, hcv, hfin]

/-- C8: a tracked version whose tagged tree lacks the API subtree never
reaches the pass (every result entry exposes the subtree), and removing
such versions from the tracked set beforehand yields the very same
result for everyone else. -/
theorem getChangelog_scope_absent (module : RepoModule) (api : String) :
    (∀ r ∈ getChangelog module api,
      hasAPISubtree api r.commit.tree = true) ∧
    getChangelog
        { versions := module.versions.filter
            (fun v => hasAPISubtree api v.commit.tree),
          history := module.history } api =
      getChangelog module api := by
  constructor
  · intro r hr
    rw [getChangelog_eq] at hr
    rcases List.mem_map.mp hr with ⟨i, hi, rfl⟩
    have hlt : i < (chVersions module api).length := List.mem_range.mp hi
    show hasAPISubtree api
      ((chVersions module api).getD i mvDummy).commit.tree = true
    exact chVersions_hasAPI module api _ (getD_mem_of_lt _ i mvDummy hlt)
  · have hidem : (module.versions.filter
        (fun v => hasAPISubtree api v.commit.tree)).filter
          (fun m => hasAPISubtree api m.commit.tree) =
        module.versions.filter (fun v => hasAPISubtree api v.commit.tree) := by
      rw [List.filter_filter]
      exact List.filter_congr (fun a _ => Bool.and_self _)
    have hcv : chVersions
        { versions := module.versions.filter
            (fun v => hasAPISubtree api v.commit.tree),
          history := module.history } api = chVersions module api := by
      simp only [chVersions]
      rw [hidem]
    have hh : chHistory
        { versions := module.versions.filter
            (fun v => hasAPISubtree api v.commit.tree),
          history := module.history } api = chHistory module api := by
      simp only [chHistory, hcv]
    have hy : chYields
        { versions := module.versions.filter
            (fun v => hasAPISubtree api v.commit.tree),
          history := module.history } api = chYields module api := by
      simp only [chYields, hcv, hh]
    have hfin : chFinal
        { versions := module.versions.filter
            (fun v => hasAPISubtree api v.commit.tree),
          history := module.history } api = chFinal module api := by
      simp only [chFinal, hcv, hy]
    rw [getChangelog_eq, getChangelog_eq, hcv, hfin]

/-- Witness for C8 at the concrete module: every returned version
exposes the API subtree. -/
theorem getChangelog_scope_absent_witness :
    hasAPISubtree "api"
      (((getChangelog mStablePre "api").getD 0 mvDummy)).commit.tree
      = true :=
  (getChangelog_scope_absent mStablePre "api").1 _ (by decide)

theorem closeCond_of_prerelease (versions : List ModuleVersion) (i : Nat)
    (hpre : isPrerelease (versions.getD i mvDummy) = true)
    (found : List Nat) :
    closeCond versions found i = !found.isEmpty := by
  cases found with
  | nil => simp [closeCond]
  | cons f fs =>
    have hp : (!isPrerelease (versions.getD f mvDummy) ||
        isPrerelease (versions.getD i mvDummy)) = true := by
      rw [hpre]; simp
    simp only [closeCond, List.any_cons, hp, Bool.true_or,
      List.isEmpty_cons, Bool.not_false]

theorem closeCond_of_stable (versions : List ModuleVersion) (i : Nat)
    (hst : isPrerelease (versions.getD i mvDummy) = false)
    (found : List Nat) :
    closeCond versions found i =
      found.any (fun f => !isPrerelease (versions.getD f mvDummy)) := by
  unfold closeCond
  rw [hst]
  simp

theorem getChangelog_log_getD (module : RepoModule) (api : String)
    (i : Nat) (hi : i < (chVersions module api).length) :
    ((getChangelog module api).getD i mvDummy).log =
      (chFinal module api).logs i := by
  rw [getChangelog_getD module api i hi]

theorem chFinal_logs_master (module : RepoModule) (api : String) (i : Nat)
    (hi : i < (chVersions module api).length)
    (hnd : ((chHistory module api).map (fun c => c.hash)).Nodup) :
    (chFinal module api).logs i =
      match (chYields module api).dropWhile (fun y =>
          y.1.hash !=
            ((chVersions module api).getD i mvDummy).commit.hash) with
      | [] => []
      | y0 :: rest =>
        ((y0 :: rest.takeWhile (fun y =>
            !closeCond (chVersions module api)
              (versionIdxAt (chVersions module api) y.1.hash) i)).filter
          (fun y => inScopeNames api y.2)).map (fun y => y.1) :=
  runPass_master (chVersions module api) api (chYields module api) i hi
    (chYields_hash_count_le module api hnd _)

/-- C4: a pre-release version's commit list is exactly the
subtree-relevant part of the filtered sequence from its tag commit up to
(excluding) the next yield carrying any tracked tag: once any tag commit
is visited after the window opened, nothing further is appended. -/
theorem getChangelog_prerelease_window_bounded (module : RepoModule)
    (api : String) (i : Nat)
    (hi : i < (chVersions module api).length)
    (hpre : isPrerelease ((chVersions module api).getD i mvDummy) = true)
    (hnd : ((chHistory module api).map (fun c => c.hash)).Nodup) :
    ((getChangelog module api).getD i mvDummy).log =
      match (chYields module api).dropWhile (fun y =>
          y.1.hash !=
            ((chVersions module api).getD i mvDummy).commit.hash) with
      | [] => []
      | y0 :: rest =>
        ((y0 :: rest.takeWhile (fun y =>
            (versionIdxAt (chVersions module api) y.1.hash).isEmpty)).filter
          (fun y => inScopeNames api y.2)).map (fun y => y.1) := by
  have hfun : (fun y : Commit × List String =>
      !closeCond (chVersions module api)
        (versionIdxAt (chVersions module api) y.1.hash) i) =
      (fun y : Commit × List String =>
        (versionIdxAt (chVersions module api) y.1.hash).isEmpty) := by
    funext y
    rw [closeCond_of_prerelease _ _ hpre]
    exact Bool.not_not _
  rw [getChangelog_log_getD module api i hi,
    chFinal_logs_master module api i hi hnd, hfun]

/-- Witness for C4 at the concrete module: the pre-release window of
v1.0.1-rc1 collects `[cexC2, cexC1]`. -/
theorem getChangelog_prerelease_window_bounded_witness :
    ((getChangelog mStablePre "api").getD 1 mvDummy).log =
      [cexC2, cexC1] :=
  (getChangelog_prerelease_window_bounded mStablePre "api" 1 (by decide)
      (by decide) (by decide)).trans (by decide)

/-- Counterexample for C3: in `mStablePre` the stable version v1.1.0
(tagged at `cexC3`) ends with `cexC1` in its list although the
pre-release tag v1.0.1-rc1 sits at `cexC2`, strictly between `cexC3` and
`cexC1` in the traversal — so a stable list does reach past the next
older tag "of any kind"; only stable tags bound it. -/
theorem getChangelog_stable_window_next_tag_cex :
    isPrerelease ((getChangelog mStablePre "api").getD 0 mvDummy) = false ∧
    ((getChangelog mStablePre "api").getD 0 mvDummy).commit = cexC3 ∧
    cexC1 ∈ ((getChangelog mStablePre "api").getD 0 mvDummy).log ∧
    chHistory mStablePre "api" = [cexC3, cexC2, cexC1] ∧
    VersionsAtCommit cexC2.hash (chVersions mStablePre "api") ≠ [] ∧
    cexC1.hash ≠ cexC2.hash ∧ cexC1.hash ≠ cexC3.hash :=
  ⟨by decide, by decide, by decide, by decide, by decide, by decide,
    by decide⟩

/-- C3 (amended): a stable version's commit list contains only commits
lying between its tag commit and the next older *stable* tracked tag in
the filtered traversal: every list entry is the tag commit's yield or a
yield inside the run on which no stable tracked tag is found. -/
theorem getChangelog_stable_window_bounded (module : RepoModule)
    (api : String) (i : Nat)
    (hi : i < (chVersions module api).length)
    (hst : isPrerelease ((chVersions module api).getD i mvDummy) = false)
    (hnd : ((chHistory module api).map (fun c => c.hash)).Nodup) :
    ∀ c ∈ ((getChangelog module api).getD i mvDummy).log,
      ∃ y0 rest,
        (chYields module api).dropWhile (fun y =>
            y.1.hash !=
              ((chVersions module api).getD i mvDummy).commit.hash) =
          y0 :: rest ∧
        (c = y0.1 ∨ ∃ y ∈ rest.takeWhile (fun y =>
            !(versionIdxAt (chVersions module api) y.1.hash).any (fun f =>
              !isPrerelease ((chVersions module api).getD f mvDummy))),
          c = y.1) := by
  intro c hc
  rw [getChangelog_log_getD module api i hi,
    chFinal_logs_master module api i hi hnd] at hc
  have hfun : (fun y : Commit × List String =>
      !closeCond (chVersions module api)
        (versionIdxAt (chVersions module api) y.1.hash) i) =
      (fun y : Commit × List String =>
        !(versionIdxAt (chVersions module api) y.1.hash).any (fun f =>
          !isPrerelease ((chVersions module api).getD f mvDummy))) := by
    funext y
    rw [closeCond_of_stable _ _ hst]
  cases hz : (chYields module api).dropWhile (fun y =>
      y.1.hash != ((chVersions module api).getD i mvDummy).commit.hash) with
  | nil =>
    rw [hz] at hc
    simp at hc
  | cons y0 rest =>
    rw [hz] at hc
    refine ⟨y0, rest, rfl, ?_⟩
    simp only at hc
    rcases List.mem_map.mp hc with ⟨y, hy, hyc⟩
    have hy2 := (List.mem_filter.mp hy).1
    rcases List.mem_cons.mp hy2 with rfl | hytw
    · exact Or.inl hyc.symm
    · refine Or.inr ⟨y, ?_, hyc.symm⟩
      rw [← hfun]
      exact hytw

/-- Witness for the amended C3 at the concrete module: both commits in
the stable v1.1.0 list are accounted for by the window bound. -/
theorem getChangelog_stable_window_bounded_witness :
    ∃ y0 rest,
      (chYields mStablePre "api").dropWhile (fun y =>
          y.1.hash !=
            ((chVersions mStablePre "api").getD 0 mvDummy).commit.hash) =
        y0 :: rest ∧
      (cexC1 = y0.1 ∨ ∃ y ∈ rest.takeWhile (fun y =>
          !(versionIdxAt (chVersions mStablePre "api") y.1.hash).any
            (fun f =>
              !isPrerelease ((chVersions mStablePre "api").getD f
                mvDummy))),
        cexC1 = y.1) :=
  getChangelog_stable_window_bounded mStablePre "api" 0 (by decide)
    (by decide) (by decide) cexC1 (by decide)

theorem chStep_accs_nodup (versions : List ModuleVersion) (api : String)
    (st : ChState) (y : Commit × List String) (h : st.accs.Nodup) :
    (chStep versions api st y).accs.Nodup := by
  rw [chStep_accs, List.nodup_append]
  exact ⟨h.filter _, versionIdxAt_nodup versions y.1.hash,
    fun a ha haf =>
      notMem_closeFilter_of_found versions
        (versionIdxAt versions y.1.hash) st.accs a haf ha⟩

theorem runPass_accs_nodup (versions : List ModuleVersion) (api : String) :
    ∀ (ys : List (Commit × List String)) (st : ChState),
      st.accs.Nodup → (runPass versions api st ys).accs.Nodup := by
  intro ys
  induction ys with
  | nil => intro st h; exact h
  | cons y ysr ih =>
    intro st h
    exact ih _ (chStep_accs_nodup versions api st y h)

/-- C5: during a pass, a visit appends the commit to a window's list
exactly once, and only when (a) the commit is subtree-relevant and
(b) the window is open after the opens/closes of that same visit; a
window is opened for every found version even when the commit is not
subtree-relevant; and over a whole pass (on a duplicate-free history)
each commit ends up in a given list at most once. -/
theorem getChangelog_append_invariant (module : RepoModule) (api : String)
    (processed : List (Commit × List String)) (y : Commit × List String)
    (i : Nat) :
    ((chStep (chVersions module api) api
        (runPass (chVersions module api) api chInitState processed)
        y).logs i =
      if inScopeNames api y.2 = true ∧
          i ∈ (chStep (chVersions module api) api
            (runPass (chVersions module api) api chInitState processed)
            y).accs then
        (runPass (chVersions module api) api chInitState processed).logs i
          ++ [y.1]
      else
        (runPass (chVersions module api) api chInitState processed).logs i)
    ∧
    (∀ f ∈ versionIdxAt (chVersions module api) y.1.hash,
      f ∈ (chStep (chVersions module api) api
        (runPass (chVersions module api) api chInitState processed)
        y).accs) ∧
    (((chHistory module api).map (fun c => c.hash)).Nodup →
      i < (chVersions module api).length →
      ((chFinal module api).logs i).Nodup) := by
  have hnd : (chStep (chVersions module api) api
      (runPass (chVersions module api) api chInitState processed)
      y).accs.Nodup :=
    chStep_accs_nodup _ _ _ _
      (runPass_accs_nodup _ _ processed chInitState (by simp [chInitState]))
  refine ⟨?_, ?_, ?_⟩
  · rw [chStep_logs]
    by_cases hs : inScopeNames api y.2
    · by_cases hmem : i ∈ (chStep (chVersions module api) api
          (runPass (chVersions module api) api chInitState processed)
          y).accs
      · rw [if_pos hs, if_pos ⟨hs, hmem⟩,
          List.count_eq_one_of_mem hnd hmem, List.replicate_one]
      · rw [if_pos hs, if_neg (fun hand => hmem hand.2),
          List.count_eq_zero.mpr hmem]
        simp
    · rw [if_neg (by simpa using hs), if_neg (fun hand => hs hand.1)]
      simp
  · intro f hf
    rw [chStep_accs]
    exact List.mem_append.mpr (Or.inr hf)
  · intro hndh hi
    rw [chFinal_logs_master module api i hi hndh]
    cases hz : (chYields module api).dropWhile (fun y =>
        y.1.hash !=
          ((chVersions module api).getD i mvDummy).commit.hash) with
    | nil => exact List.nodup_nil
    | cons y0 rest =>
      simp only
      have h1 : ((y0 :: rest.takeWhile (fun y =>
          !closeCond (chVersions module api)
            (versionIdxAt (chVersions module api) y.1.hash) i)).filter
          (fun y => inScopeNames api y.2)).Sublist
          (chYields module api) := by
        refine (List.filter_sublist _).trans ?_
        refine (List.Sublist.cons₂ y0 (List.takeWhile_sublist _)).trans ?_
        rw [← hz]
        exact List.dropWhile_sublist _
      have h2 := (h1.map (fun y => y.1)).trans
        (chYields_fst_sublist module api)
      have h3 := h2.map (fun c => c.hash)
      rw [List.map_map] at h3
      have h4 : ((((y0 :: rest.takeWhile (fun y =>
          !closeCond (chVersions module api)
            (versionIdxAt (chVersions module api) y.1.hash) i)).filter
          (fun y => inScopeNames api y.2)).map (fun y => y.1)).map
          (fun c => c.hash)).Nodup := by
        rw [List.map_map]
        exact List.Nodup.sublist h3 hndh
      exact List.Nodup.of_map _ h4

/-- Witness for C5: at the opening commit the stable window (index 0)
is opened by `found` even though the commit list `processed` is empty. -/
theorem getChangelog_append_invariant_witness :
    0 ∈ (chStep (chVersions mStablePre "api") "api"
      (runPass (chVersions mStablePre "api") "api" chInitState [])
      (cexC3, ["api/a"])).accs :=
  (getChangelog_append_invariant mStablePre "api" [] (cexC3, ["api/a"])
      0).2.1 0 (by decide)

theorem sublist_cons_split {α : Type} :
    ∀ (t : List α) (a : α) (ys vs : List α),
      (a :: ys).Sublist (t ++ a :: vs) → a ∉ t → ys.Sublist vs := by
  intro t
  induction t with
  | nil =>
    intro a ys vs h _
    cases h with
    | cons _ h2 => exact (List.sublist_cons_self a ys).trans h2
    | cons₂ _ h2 => exact h2
  | cons b tr ih =>
    intro a ys vs h hna
    rw [List.cons_append] at h
    cases h with
    | cons _ h2 => exact ih a ys vs h2 (fun hm => hna (List.mem_cons_of_mem b hm))
    | cons₂ _ h2 => exact absurd (List.mem_cons_self _ _) hna

theorem succPairs_mem_dropWhile (p : Commit → Bool) :
    ∀ (l : List Commit), ((l.map (fun c => c.hash)).Nodup) →
      ∀ x ∈ succPairs l, x.1 ∈ l.dropWhile p →
        x ∈ succPairs (l.dropWhile p) := by
  intro l
  induction l with
  | nil => intro _ x hx; simp [succPairs] at hx
  | cons c ls ih =>
    intro hnd x hx hxd
    by_cases hp : p c
    · rw [List.dropWhile_cons, if_pos hp] at hxd ⊢
      cases ls with
      | nil => simp [List.dropWhile] at hxd
      | cons d ls2 =>
        rw [succPairs_cons_cons] at hx
        rcases List.mem_cons.mp hx with rfl | hx2
        · exfalso
          have hcmem : c ∈ d :: ls2 :=
            (List.dropWhile_sublist p).subset hxd
          rw [List.map_cons, List.nodup_cons] at hnd
          exact hnd.1 (List.mem_map_of_mem _ hcmem)
        · have hnd2 : (((d :: ls2).map (fun c => c.hash))).Nodup := by
            rw [List.map_cons, List.nodup_cons] at hnd
            exact hnd.2
          exact ih hnd2 x hx2 hxd
    · rw [List.dropWhile_cons, if_neg hp] at hxd ⊢
      exact hx

theorem chYields_mem_commit_mem_history (module : RepoModule)
    (api : String) (y : Commit × List String)
    (hy : y ∈ chYields module api) : y.1 ∈ chHistory module api :=
  (chYields_fst_sublist module api).subset (List.mem_map_of_mem _ hy)

/-- C9: a tracked version whose tag commit is never reached by the
traversal, or whose ancestry (the history from its tag commit on) never
touches the API subtree, ends the pass with an empty commit list — and
the pass completes for it like for any other version. -/
theorem getChangelog_untouched_version_empty_log (module : RepoModule)
    (api : String) (i : Nat)
    (hi : i < (chVersions module api).length) :
    ((∀ c ∈ chHistory module api,
        c.hash ≠ ((chVersions module api).getD i mvDummy).commit.hash) →
      ((getChangelog module api).getD i mvDummy).log = []) ∧
    (((chHistory module api).map (fun c => c.hash)).Nodup →
      (∀ x ∈ succPairs ((chHistory module api).dropWhile (fun c =>
          c.hash !=
            ((chVersions module api).getD i mvDummy).commit.hash)),
        inScopeNames api (diffNames x.1 x.2) = false) →
      ((getChangelog module api).getD i mvDummy).log = []) := by
  constructor
  · intro hnever
    have hys : ∀ y ∈ chYields module api,
        y.1.hash ≠
          ((chVersions module api).getD i mvDummy).commit.hash := by
      intro y hy
      exact hnever y.1 (chYields_mem_commit_mem_history module api y hy)
    have hcnt : ((chYields module api).map (fun y => y.1.hash)).count
        ((chVersions module api).getD i mvDummy).commit.hash = 0 := by
      rw [List.count_eq_zero]
      intro hmem
      rcases List.mem_map.mp hmem with ⟨y, hy, hyh⟩
      exact hys y hy hyh
    have hm := runPass_master (chVersions module api) api
      (chYields module api) i hi (by rw [hcnt]; omega)
    have hdw : (chYields module api).dropWhile (fun y =>
        y.1.hash !=
          ((chVersions module api).getD i mvDummy).commit.hash) = [] :=
      List.dropWhile_eq_nil_iff.mpr (fun y hy => bne_iff_ne.mpr (hys y hy))
    rw [getChangelog_log_getD module api i hi]
    rw [hdw] at hm
    exact hm
  · intro hndh hscope
    have hm := chFinal_logs_master module api i hi hndh
    rw [getChangelog_log_getD module api i hi]
    cases hz : (chYields module api).dropWhile (fun y =>
        y.1.hash !=
          ((chVersions module api).getD i mvDummy).commit.hash) with
    | nil =>
      rw [hz] at hm
      exact hm
    | cons y0 rest =>
      rw [hz] at hm
      have hy0ys : y0 ∈ chYields module api := by
        have hmem : y0 ∈ (chYields module api).dropWhile (fun y =>
            y.1.hash !=
              ((chVersions module api).getD i mvDummy).commit.hash) := by
          rw [hz]
          exact List.mem_cons_self y0 rest
        exact (List.dropWhile_sublist _).subset hmem
      have hy0p := dropWhile_head_false _ _ y0 rest hz
      have hy0h : y0.1.hash =
          ((chVersions module api).getD i mvDummy).commit.hash := by
        simpa using hy0p
      have hy0H : y0.1 ∈ chHistory module api :=
        chYields_mem_commit_mem_history module api y0 hy0ys
      have hanc_ne : (chHistory module api).dropWhile (fun c =>
          c.hash !=
            ((chVersions module api).getD i mvDummy).commit.hash) ≠ [] := by
        intro h0
        have := List.dropWhile_eq_nil_iff.mp h0 y0.1 hy0H
        rw [hy0h] at this
        simp at this
      obtain ⟨a0, anc2, hanc⟩ := List.exists_cons_of_ne_nil hanc_ne
      have ha0p := dropWhile_head_false _ _ a0 anc2 hanc
      have ha0h : a0.hash =
          ((chVersions module api).getD i mvDummy).commit.hash := by
        simpa using ha0p
      have ha0H : a0 ∈ chHistory module api := by
        have hmem : a0 ∈ (chHistory module api).dropWhile (fun c =>
            c.hash !=
              ((chVersions module api).getD i mvDummy).commit.hash) := by
          rw [hanc]
          exact List.mem_cons_self a0 anc2
        exact (List.dropWhile_sublist _).subset hmem
      have ha0eq : y0.1 = a0 :=
        List.inj_on_of_nodup_map hndh hy0H ha0H (by rw [hy0h, ha0h])
      have ha0nt : a0 ∉ (chHistory module api).takeWhile (fun c =>
          c.hash !=
            ((chVersions module api).getD i mvDummy).commit.hash) := by
        intro hmem
        have := List.mem_takeWhile_imp hmem
        rw [ha0h] at this
        simp at this
      have hrest_sub : (rest.map (fun y => y.1)).Sublist anc2 := by
        have h1 : ((y0 :: rest).map (fun y => y.1)).Sublist
            ((chYields module api).map (fun y => y.1)) := by
          refine List.Sublist.map _ ?_
          rw [← hz]
          exact List.dropWhile_sublist _
        have h2 := h1.trans (chYields_fst_sublist module api)
        rw [List.map_cons] at h2
        rw [show chHistory module api =
            (chHistory module api).takeWhile (fun c =>
              c.hash !=
                ((chVersions module api).getD i mvDummy).commit.hash) ++
            ((chHistory module api).dropWhile (fun c =>
              c.hash !=
                ((chVersions module api).getD i mvDummy).commit.hash))
          from (List.takeWhile_append_dropWhile _ _).symm, hanc,
          ha0eq] at h2
        exact sublist_cons_split _ a0 _ _ h2 ha0nt
      have hall : ∀ y ∈ y0 :: rest.takeWhile (fun y =>
          !closeCond (chVersions module api)
            (versionIdxAt (chVersions module api) y.1.hash) i),
          inScopeNames api y.2 = false := by
        intro y hy
        have hyys : y ∈ chYields module api := by
          have hsub : (y0 :: rest.takeWhile (fun y =>
              !closeCond (chVersions module api)
                (versionIdxAt (chVersions module api) y.1.hash) i)).Sublist
              (chYields module api) := by
            refine (List.Sublist.cons₂ y0
              (List.takeWhile_sublist _)).trans ?_
            rw [← hz]
            exact List.dropWhile_sublist _
          exact hsub.subset hy
        obtain ⟨x, hxH, hxy⟩ := commitPathIter_mem_repr
          (chPredicate (chVersions module api) api) (chHistory module api)
          y hyys
        have hx1 : x.1 = y.1 := by rw [hxy]; rfl
        have hx1anc : x.1 ∈ (chHistory module api).dropWhile (fun c =>
            c.hash !=
              ((chVersions module api).getD i mvDummy).commit.hash) := by
          rcases List.mem_cons.mp hy with rfl | hytw
          · rw [hanc, hx1, ha0eq]
            exact List.mem_cons_self a0 anc2
          · have hyrest : y ∈ rest :=
              (List.takeWhile_sublist _).subset hytw
            have hmem2 : y.1 ∈ anc2 :=
              hrest_sub.subset (List.mem_map_of_mem _ hyrest)
            rw [hanc, hx1]
            exact List.mem_cons_of_mem a0 hmem2
        have hxanc := succPairs_mem_dropWhile _ (chHistory module api)
          hndh x hxH hx1anc
        have hsc := hscope x hxanc
        have hy2 : y.2 = diffNames x.1 x.2 := by rw [hxy]; rfl
        rw [hy2]
        exact hsc
      have hfe : (y0 :: rest.takeWhile (fun y =>
          !closeCond (chVersions module api)
            (versionIdxAt (chVersions module api) y.1.hash) i)).filter
          (fun y => inScopeNames api y.2) = [] :=
        List.filter_eq_nil_iff.mpr (fun y hy => by rw [hall y hy]; simp)
      have hm2 : (chFinal module api).logs i =
          ((y0 :: rest.takeWhile (fun y =>
            !closeCond (chVersions module api)
              (versionIdxAt (chVersions module api) y.1.hash) i)).filter
            (fun y => inScopeNames api y.2)).map (fun y => y.1) := hm
      rw [hm2, hfe]
      rfl

/-- Witness for C9: in `mNeverReached` the semver-highest tag sits on an
older commit, so v1.9.0's newer tag commit is never reached by the log
keyed at v2.0.0 — its list is legitimately empty. -/
theorem getChangelog_untouched_version_empty_log_witness :
    ((getChangelog mNeverReached "api").getD 1 mvDummy).log = [] :=
  (getChangelog_untouched_version_empty_log mNeverReached "api" 1
      (by decide)).1 (by decide)
